import Mathlib

set_option linter.unusedVariables false

/-!
Shallow embedding of the concurrency/IO core of the hisat read pipeline:
the ordered output queue (`src/outq.cpp`, reordering mode) and the read
dispatch loops (`src/pat.cpp`).  Machine integers (`size_t`, `TReadId`,
`int` counts) are modelled as `Nat`: all quantities involved are counts
and indices that the program never overflows nor makes negative on the
paths modelled here.
-/

/-- State of an `OutputQueue` in reordering mode (`reorder_ == true`), as
manipulated by `beginReadImpl`, `finishReadImpl` and `flushImpl` in
`src/outq.cpp`.  `cur` is `cur_`; `lines`, `started`, `finished` are the
parallel window vectors (indexed relative to `cur`); `flushed` is
`perThreadFlushed_[0]`, the counter advanced by `flushImpl`; `out` models
the byte stream written through `writeString`, one entry per record
written. -/
structure OutQ where
  cur : Nat
  lines : List String
  started : List Bool
  finished : List Bool
  flushed : Nat
  out : List String
deriving Repr, DecidableEq

/-- Model of `EList::resize` growing a window vector to length `n`, new
slots filled with `d`.  In `beginReadImpl` this is only invoked when the
target index is at or beyond the current length, so it never shrinks. -/
def padTo (l : List α) (n : Nat) (d : α) : List α :=
  l ++ List.replicate (n - l.length) d

/-- Model of `OutputQueue::beginReadImpl` (src/outq.cpp:27-48), reordering
branch: grow the window so that slot `rdid - cur` exists (new slots both
unstarted and unfinished), then set `started[rdid - cur] := true` and,
unconditionally, `finished[rdid - cur] := false`.  The code asserts
`cur_ ≤ rdid` on entry. -/
def OutQ.beginRead (s : OutQ) (rdid : Nat) : OutQ :=
  let idx := rdid - s.cur
  { s with
    lines := padTo s.lines (idx + 1) ""
    started := (padTo s.started (idx + 1) false).set idx true
    finished := (padTo s.finished (idx + 1) false).set idx false }

/-- Model of `OutputQueue::flushImpl` (src/outq.cpp:107-138), reordering
branch.  `T` stands for the constant `NFLUSH_THRESH`, declared in the
header `outq.h` which is not part of the sources; it is therefore kept as
an explicit parameter and every result below holds for every value of it.
The maximal finished prefix, of length `nflush`, is written to the output
stream and erased from the front of the window iff `force` is set or
`nflush ≥ T`; otherwise nothing at all happens.

`OutQ.nflush` is the scan `while(nflush < finished_.size() &&
finished_[nflush]) nflush++` of src/outq.cpp:118-122. -/
def OutQ.nflush (s : OutQ) : Nat :=
  (s.finished.takeWhile (fun b => b)).length

def OutQ.flushImpl (T : Nat) (force : Bool) (s : OutQ) : OutQ :=
  if force = true ∨ T ≤ s.nflush then
    { cur := s.cur + s.nflush
      lines := s.lines.drop s.nflush
      started := s.started.drop s.nflush
      finished := s.finished.drop s.nflush
      flushed := s.flushed + s.nflush
      out := s.out ++ s.lines.take s.nflush }
  else s

/-- Model of `OutputQueue::finishReadImpl` (src/outq.cpp:62-74), reordering
branch: store the record text in slot `rdid - cur`, mark it finished, and
attempt an unforced flush (`flush(false, false)`).  The code asserts
`cur_ ≤ rdid`, `rdid - cur_ < lines_.size()`, `started_[rdid - cur_]` and
`!finished_[rdid - cur_]` on entry. -/
def OutQ.finishRead (T : Nat) (s : OutQ) (recd : String) (rdid : Nat) : OutQ :=
  let idx := rdid - s.cur
  OutQ.flushImpl T false
    { s with
      lines := s.lines.set idx recd
      finished := s.finished.set idx true }

/-- The preconditions `finishReadImpl` asserts on entry (src/outq.cpp:65-70). -/
def OutQ.FinishPre (s : OutQ) (rdid : Nat) : Prop :=
  s.cur ≤ rdid ∧ rdid - s.cur < s.lines.length ∧
    s.started.getD (rdid - s.cur) false = true ∧
    s.finished.getD (rdid - s.cur) false = false

instance (s : OutQ) (rdid : Nat) : Decidable (OutQ.FinishPre s rdid) := by
  unfold OutQ.FinishPre; infer_instance

/-! Helper lemmas about the window vectors. -/

theorem padTo_length (l : List α) (n : Nat) (d : α) :
    (padTo l n d).length = max l.length n := by
  simp only [padTo, List.length_append, List.length_replicate]
  omega

theorem padTo_getD_lt (l : List α) (n : Nat) (d d' : α) (i : Nat) (h : i < l.length) :
    (padTo l n d).getD i d' = l.getD i d' := by
  simp [padTo, List.getD_eq_getElem?_getD, List.getElem?_append_left h]

theorem padTo_getD_ge (l : List α) (n : Nat) (d : α) (i : Nat) (h : l.length ≤ i) :
    (padTo l n d).getD i d = d := by
  simp only [padTo, List.getD_eq_getElem?_getD, List.getElem?_append_right h]
  by_cases hi : i - l.length < n - l.length
  · simp [List.getElem?_replicate_of_lt hi]
  · rw [List.getElem?_eq_none (by simp; omega)]
    rfl

theorem getD_set_self (l : List α) (i : Nat) (a d : α) (h : i < l.length) :
    (l.set i a).getD i d = a := by
  simp [List.getD_eq_getElem?_getD, List.getElem?_set_self h]

theorem getD_set_ne (l : List α) (i j : Nat) (a d : α) (h : i ≠ j) :
    (l.set i a).getD j d = l.getD j d := by
  simp [List.getD_eq_getElem?_getD, List.getElem?_set_ne h]

theorem getD_drop (l : List α) (n i : Nat) (d : α) :
    (l.drop n).getD i d = l.getD (n + i) d := by
  simp [List.getD_eq_getElem?_getD, List.getElem?_drop]

theorem twLen_le (l : List Bool) : (l.takeWhile (fun b => b)).length ≤ l.length := by
  induction l with
  | nil => simp [List.takeWhile]
  | cons a l ih =>
    cases a
    · simp [List.takeWhile]
    · simp only [List.takeWhile]
      simpa using Nat.succ_le_succ ih

theorem nflush_le_length (s : OutQ) : s.nflush ≤ s.finished.length :=
  twLen_le s.finished

theorem twLen_getD_true (l : List Bool) (i : Nat)
    (h : i < (l.takeWhile (fun b => b)).length) : l.getD i false = true := by
  induction l generalizing i with
  | nil => simp [List.takeWhile] at h
  | cons a l ih =>
    cases a with
    | false => simp [List.takeWhile] at h
    | true =>
      cases i with
      | zero => rfl
      | succ j =>
        rw [List.getD_cons_succ]
        exact ih j (by simpa [List.takeWhile] using h)

theorem twLen_le_of_getD_false (l : List Bool) (i : Nat)
    (h : l.getD i false = false) : (l.takeWhile (fun b => b)).length ≤ i := by
  by_contra hlt
  rw [twLen_getD_true l i (by omega)] at h
  exact absurd h (by decide)

theorem twLen_ge (l : List Bool) (m : Nat) (hle : m ≤ l.length)
    (h1 : ∀ i, i < m → l.getD i false = true) :
    m ≤ (l.takeWhile (fun b => b)).length := by
  induction l generalizing m with
  | nil => simpa using hle
  | cons a l ih =>
    cases m with
    | zero => exact Nat.zero_le _
    | succ k =>
      have ha : a = true := h1 0 (Nat.succ_pos k)
      subst ha
      have := ih k (by simpa using hle) (fun i hi => h1 (i + 1) (by omega))
      simp only [List.takeWhile]
      simpa using Nat.succ_le_succ this

theorem twLen_eq (l : List Bool) (m : Nat) (hle : m ≤ l.length)
    (h1 : ∀ i, i < m → l.getD i false = true)
    (h2 : m = l.length ∨ l.getD m false = false) :
    (l.takeWhile (fun b => b)).length = m := by
  have hub : (l.takeWhile (fun b => b)).length ≤ m := by
    rcases h2 with h2 | h2
    · exact h2 ▸ twLen_le l
    · exact twLen_le_of_getD_false l m h2
  have hlb := twLen_ge l m hle h1
  omega

/-- C4: with reordering enabled and flush threshold `T` (`NFLUSH_THRESH`),
an unforced flush writes nothing to the output stream unless at least `T`
contiguous records starting at `cur` are finished: when the finished
prefix is shorter than `T`, an unforced `flushImpl` is the identity, so
`cur`, the window contents, the flushed counter and the output stream are
all unchanged. -/
theorem flushImpl_unforced_below_thresh (T : Nat) (s : OutQ)
    (h : s.nflush < T) :
    OutQ.flushImpl T false s = s := by
  unfold OutQ.flushImpl
  have hc : ¬ (false = true ∨ T ≤ s.nflush) := by
    push_neg
    exact ⟨Bool.false_ne_true, h⟩
  rw [if_neg hc]

/-- Witness for C4 at a concrete state: one started, unfinished record and
threshold 8. -/
theorem flushImpl_unforced_below_thresh_witness :
    (OutQ.mk 0 ["x"] [true] [false] 0 []).nflush < 8 ∧
      OutQ.flushImpl 8 false (OutQ.mk 0 ["x"] [true] [false] 0 []) =
        OutQ.mk 0 ["x"] [true] [false] 0 [] :=
  ⟨by decide, flushImpl_unforced_below_thresh 8 _ (by decide)⟩

/-- C10: with reordering enabled, `beginReadImpl` unconditionally clears the
slot's finished flag (src/outq.cpp:46), so calling `beginRead` on an id that
was already finished (but not yet flushed) discards its finished status;
consequently any subsequent flush — forced or not — stops before that slot:
the id stays in the window (`cur` stays at most `rdid`) with its finished
flag still clear, so its stored text is not written until `finishRead` is
called for it again. -/
theorem beginRead_clears_finished (T : Nat) (s : OutQ) (rdid : Nat) (force : Bool)
    (hc : s.cur ≤ rdid) :
    (s.beginRead rdid).finished.getD (rdid - s.cur) false = false ∧
      (OutQ.flushImpl T force (s.beginRead rdid)).cur ≤ rdid ∧
      (OutQ.flushImpl T force (s.beginRead rdid)).finished.getD
        (rdid - (OutQ.flushImpl T force (s.beginRead rdid)).cur) false = false := by
  set idx := rdid - s.cur with hidx
  have hfget : (s.beginRead rdid).finished.getD idx false = false := by
    unfold OutQ.beginRead
    have hlen : idx < (padTo s.finished (idx + 1) false).length := by
      rw [padTo_length]; omega
    exact getD_set_self _ idx false false hlen
  refine ⟨hfget, ?_⟩
  have hcur : (s.beginRead rdid).cur = s.cur := rfl
  have hn : (s.beginRead rdid).nflush ≤ idx := by
    unfold OutQ.nflush
    exact twLen_le_of_getD_false _ idx hfget
  unfold OutQ.flushImpl
  by_cases hcond : (force = true ∨ T ≤ (s.beginRead rdid).nflush)
  · rw [if_pos hcond]
    constructor
    · simp only [hcur]
      omega
    · simp only [hcur]
      have harith : rdid - (s.cur + (s.beginRead rdid).nflush) = idx - (s.beginRead rdid).nflush := by
        omega
      rw [harith, getD_drop]
      have : (s.beginRead rdid).nflush + (idx - (s.beginRead rdid).nflush) = idx := by omega
      rw [this]
      exact hfget
  · rw [if_neg hcond]
    exact ⟨by omega, hfget⟩

/-- Witness for C10: record 0 was finished but not flushed (threshold 3 keeps
it buffered), then `beginRead 0` is called again. -/
theorem beginRead_clears_finished_witness :
    (OutQ.mk 0 ["A"] [true] [true] 0 []).cur ≤ 0 ∧
      ((OutQ.mk 0 ["A"] [true] [true] 0 []).beginRead 0).finished.getD 0 false = false ∧
        (OutQ.flushImpl 3 true ((OutQ.mk 0 ["A"] [true] [true] 0 []).beginRead 0)).cur ≤ 0 ∧
        (OutQ.flushImpl 3 true ((OutQ.mk 0 ["A"] [true] [true] 0 []).beginRead 0)).finished.getD
          (0 - (OutQ.flushImpl 3 true ((OutQ.mk 0 ["A"] [true] [true] 0 []).beginRead 0)).cur)
          false = false :=
  ⟨by decide, beginRead_clears_finished 3 (OutQ.mk 0 ["A"] [true] [true] 0 []) 0 true (by decide)⟩

/-- C9: with reordering enabled, calling `finishRead` twice on the same id
before that id has been flushed is invalid: after a `finishRead` on `rdid`
satisfying the asserted preconditions, as long as `rdid` has not been
flushed (`cur` still at most `rdid`), the slot's finished flag is set, so
the precondition `assert(!finished_[rdid - cur_])` of a second
`finishReadImpl` call fails and `FinishPre` no longer holds. -/
theorem finishRead_no_double (T : Nat) (s : OutQ) (recd : String) (rdid : Nat)
    (hpre : s.FinishPre rdid)
    (hlen : s.lines.length = s.finished.length)
    (hnot : (OutQ.finishRead T s recd rdid).cur ≤ rdid) :
    (OutQ.finishRead T s recd rdid).finished.getD
        (rdid - (OutQ.finishRead T s recd rdid).cur) false = true ∧
      ¬ (OutQ.finishRead T s recd rdid).FinishPre rdid := by
  obtain ⟨hc, hi, hst, hnf⟩ := hpre
  set idx := rdid - s.cur with hidx
  set sMid : OutQ :=
    { s with lines := s.lines.set idx recd, finished := s.finished.set idx true } with hsMid
  have hmidget : sMid.finished.getD idx false = true := by
    have hin : idx < s.finished.length := by omega
    exact getD_set_self _ idx true false hin
  have hrun : OutQ.finishRead T s recd rdid = OutQ.flushImpl T false sMid := rfl
  have hkey : (OutQ.finishRead T s recd rdid).finished.getD
      (rdid - (OutQ.finishRead T s recd rdid).cur) false = true := by
    rw [hrun]
    unfold OutQ.flushImpl
    by_cases hcond : ((false : Bool) = true ∨ T ≤ sMid.nflush)
    · rw [if_pos hcond]
      have hcur : (OutQ.finishRead T s recd rdid).cur = s.cur + sMid.nflush := by
        rw [hrun]
        unfold OutQ.flushImpl
        rw [if_pos hcond]
      have hnle : sMid.nflush ≤ idx := by
        have := hnot
        rw [hcur] at this
        omega
      simp only
      have harith : rdid - (sMid.cur + sMid.nflush) = idx - sMid.nflush := by
        have : sMid.cur = s.cur := rfl
        omega
      rw [harith, getD_drop]
      have : sMid.nflush + (idx - sMid.nflush) = idx := by omega
      rw [this]
      exact hmidget
    · rw [if_neg hcond]
      exact hmidget
  refine ⟨hkey, fun hpre2 => ?_⟩
  obtain ⟨_, _, _, hnf2⟩ := hpre2
  rw [hkey] at hnf2
  exact absurd hnf2 (by decide)

/-- Witness for C9: a two-slot window where slot 0 is started; `finishRead`
on id 0 with threshold 5 buffers it (no flush), after which a second finish
on id 0 is rejected. -/
theorem finishRead_no_double_witness :
    (OutQ.mk 0 ["", ""] [true, false] [false, false] 0 []).FinishPre 0 ∧
      (OutQ.finishRead 5 (OutQ.mk 0 ["", ""] [true, false] [false, false] 0 []) "A" 0).finished.getD
          (0 - (OutQ.finishRead 5 (OutQ.mk 0 ["", ""] [true, false] [false, false] 0 []) "A" 0).cur)
          false = true ∧
      ¬ (OutQ.finishRead 5 (OutQ.mk 0 ["", ""] [true, false] [false, false] 0 []) "A" 0).FinishPre 0 :=
  ⟨by decide,
    finishRead_no_double 5 (OutQ.mk 0 ["", ""] [true, false] [false, false] 0 []) "A" 0
      (by decide) (by decide) (by decide)⟩

/-- Unfolded form of `beginRead` (zeta-reduced), for rewriting. -/
theorem OutQ.beginRead_def (s : OutQ) (rdid : Nat) :
    s.beginRead rdid =
      { s with
        lines := padTo s.lines (rdid - s.cur + 1) ""
        started := (padTo s.started (rdid - s.cur + 1) false).set (rdid - s.cur) true
        finished := (padTo s.finished (rdid - s.cur + 1) false).set (rdid - s.cur) false } :=
  rfl

/-- Unfolded form of `finishRead` (zeta-reduced), for rewriting. -/
theorem OutQ.finishRead_def (T : Nat) (s : OutQ) (recd : String) (rdid : Nat) :
    OutQ.finishRead T s recd rdid =
      OutQ.flushImpl T false
        { s with
          lines := s.lines.set (rdid - s.cur) recd
          finished := s.finished.set (rdid - s.cur) true } :=
  rfl

/-- The window invariant of the reordering output queue: the three parallel
window vectors have equal length, and a finished slot is always a started
slot (`finished[i] ⇒ started[i]`). -/
def OutQ.Inv (s : OutQ) : Prop :=
  s.lines.length = s.started.length ∧ s.lines.length = s.finished.length ∧
    ∀ i, s.finished.getD i false = true → s.started.getD i false = true

theorem Inv_beginRead (s : OutQ) (rdid : Nat) (hinv : s.Inv) :
    (s.beginRead rdid).Inv := by
  obtain ⟨h1, h2, h3⟩ := hinv
  rw [OutQ.beginRead_def]
  unfold OutQ.Inv
  refine ⟨?_, ?_, ?_⟩
  · simp only [List.length_set, padTo_length, h1]
  · simp only [List.length_set, padTo_length, h2]
  · intro i hfi
    simp only at hfi ⊢
    by_cases hi : i = rdid - s.cur
    · subst hi
      exact getD_set_self _ _ _ _ (by rw [padTo_length]; omega)
    · rw [getD_set_ne _ _ _ _ _ (fun h => hi h.symm)] at hfi
      rw [getD_set_ne _ _ _ _ _ (fun h => hi h.symm)]
      by_cases hlt : i < s.finished.length
      · rw [padTo_getD_lt _ _ _ _ _ hlt] at hfi
        rw [padTo_getD_lt _ _ _ _ _ (by omega : i < s.started.length)]
        exact h3 i hfi
      · rw [padTo_getD_ge _ _ _ _ (by omega)] at hfi
        exact absurd hfi (by decide)

theorem Inv_flushImpl (T : Nat) (force : Bool) (s : OutQ) (hinv : s.Inv) :
    (OutQ.flushImpl T force s).Inv := by
  obtain ⟨h1, h2, h3⟩ := hinv
  unfold OutQ.flushImpl
  by_cases hcond : (force = true ∨ T ≤ s.nflush)
  · rw [if_pos hcond]
    unfold OutQ.Inv
    refine ⟨?_, ?_, ?_⟩
    · simp only [List.length_drop]; omega
    · simp only [List.length_drop]; omega
    · intro i hfi
      simp only at hfi ⊢
      rw [getD_drop] at hfi ⊢
      exact h3 _ hfi
  · rw [if_neg hcond]
    exact ⟨h1, h2, h3⟩

theorem Inv_finishRead (T : Nat) (s : OutQ) (recd : String) (rdid : Nat)
    (hinv : s.Inv) (hpre : s.FinishPre rdid) :
    (OutQ.finishRead T s recd rdid).Inv := by
  obtain ⟨h1, h2, h3⟩ := hinv
  obtain ⟨hc, hi, hst, hnf⟩ := hpre
  rw [OutQ.finishRead_def]
  apply Inv_flushImpl
  unfold OutQ.Inv
  refine ⟨?_, ?_, ?_⟩
  · simp only [List.length_set]; exact h1
  · simp only [List.length_set]; exact h2
  · intro i hfi
    simp only at hfi ⊢
    by_cases hieq : i = rdid - s.cur
    · subst hieq; exact hst
    · rw [getD_set_ne _ _ _ _ _ (fun h => hieq h.symm)] at hfi
      exact h3 i hfi

/-- Tail-growth behaviour of `beginReadImpl`: `cur` and the output stream are
untouched, the window length becomes `max old (rdid - cur + 1)` (so an id
beyond the window extends it), previously existing slots other than the
target keep their flags, newly created slots other than the target are
unstarted and unfinished, and the target slot itself ends started and
unfinished. -/
def OutQ.GrowsAtTail (s : OutQ) (rdid : Nat) : Prop :=
  (s.beginRead rdid).cur = s.cur ∧ (s.beginRead rdid).out = s.out ∧
    (s.beginRead rdid).finished.length = max s.finished.length (rdid - s.cur + 1) ∧
    (∀ i, i ≠ rdid - s.cur → i < s.finished.length →
      (s.beginRead rdid).finished.getD i false = s.finished.getD i false ∧
      (s.beginRead rdid).started.getD i false = s.started.getD i false) ∧
    (∀ i, i ≠ rdid - s.cur → s.finished.length ≤ i →
      (s.beginRead rdid).finished.getD i false = false ∧
      (s.beginRead rdid).started.getD i false = false) ∧
    (s.beginRead rdid).started.getD (rdid - s.cur) false = true ∧
    (s.beginRead rdid).finished.getD (rdid - s.cur) false = false

/-- Head-shrink behaviour of `flushImpl`: it is either the identity, or it
removes exactly the maximal finished contiguous prefix (length `nflush`) from
the front of all three vectors, appends exactly those texts to the output,
and advances `cur` by exactly `nflush`. -/
def OutQ.ShrinksFromHead (T : Nat) (force : Bool) (s : OutQ) : Prop :=
  OutQ.flushImpl T force s = s ∨
    ((OutQ.flushImpl T force s).cur = s.cur + s.nflush ∧
      (OutQ.flushImpl T force s).lines = s.lines.drop s.nflush ∧
      (OutQ.flushImpl T force s).started = s.started.drop s.nflush ∧
      (OutQ.flushImpl T force s).finished = s.finished.drop s.nflush ∧
      (OutQ.flushImpl T force s).out = s.out ++ s.lines.take s.nflush ∧
      ∀ i, i < s.nflush → s.finished.getD i false = true)

/-- C5: every `beginRead`, `finishRead` and `flush` operation on the
reordering output queue preserves the window invariants
(`finished[i] ⇒ started[i]`, parallel vectors of equal length); the window
only ever grows at its tail (`beginRead` on any id at or beyond the window
— `rdidB` is unconstrained here, so in particular an id past the current
window tail — extends it with unstarted, unfinished slots) and only ever
shrinks from its head (a flush removes exactly a finished contiguous
prefix of length `nflush` starting at `cur` and advances `cur` by exactly
`nflush`).  Each operation's own asserted precondition guards only its own
conjunct: `beginRead` and `flush` need none beyond the invariant, and the
`finishRead` conjunct assumes exactly the asserts of `finishReadImpl`. -/
theorem outq_window_invariants (T : Nat) (s : OutQ) (rdidB rdidF : Nat)
    (recd : String) (force : Bool) (hinv : s.Inv) :
    ((s.beginRead rdidB).Inv ∧ s.GrowsAtTail rdidB) ∧
      (s.FinishPre rdidF → (OutQ.finishRead T s recd rdidF).Inv) ∧
      (OutQ.flushImpl T force s).Inv ∧
      OutQ.ShrinksFromHead T force s := by
  obtain ⟨h1, h2, h3⟩ := hinv
  refine ⟨⟨Inv_beginRead s rdidB ⟨h1, h2, h3⟩, ?_⟩,
    fun hpre => Inv_finishRead T s recd rdidF ⟨h1, h2, h3⟩ hpre,
    Inv_flushImpl T force s ⟨h1, h2, h3⟩, ?_⟩
  · unfold OutQ.GrowsAtTail
    rw [OutQ.beginRead_def]
    refine ⟨rfl, rfl, ?_, ?_, ?_, ?_, ?_⟩
    · simp only [List.length_set, padTo_length]
    · intro i hne hlt
      simp only
      constructor
      · rw [getD_set_ne _ _ _ _ _ (fun h => hne h.symm),
          padTo_getD_lt _ _ _ _ _ hlt]
      · rw [getD_set_ne _ _ _ _ _ (fun h => hne h.symm),
          padTo_getD_lt _ _ _ _ _ (by omega : i < s.started.length)]
    · intro i hne hge
      simp only
      constructor
      · rw [getD_set_ne _ _ _ _ _ (fun h => hne h.symm),
          padTo_getD_ge _ _ _ _ hge]
      · rw [getD_set_ne _ _ _ _ _ (fun h => hne h.symm),
          padTo_getD_ge _ _ _ _ (by omega : s.started.length ≤ i)]
    · exact getD_set_self _ _ _ _ (by rw [padTo_length]; omega)
    · exact getD_set_self _ _ _ _ (by rw [padTo_length]; omega)
  · unfold OutQ.ShrinksFromHead OutQ.flushImpl
    by_cases hcond : (force = true ∨ T ≤ s.nflush)
    · right
      rw [if_pos hcond]
      exact ⟨rfl, rfl, rfl, rfl, rfl, fun i hilt => twLen_getD_true _ i hilt⟩
    · left
      rw [if_neg hcond]

theorem getD_false_false_pair (i : Nat) :
    ([false, false] : List Bool).getD i false = false := by
  rcases i with _ | _ | i <;> rfl

/-- Witness for C5 at a concrete state satisfying the invariant: the
window has two slots (only slot 0 started), `beginRead` is exercised at
id 5 — beyond the window, so the tail-growth conjunct applies to a
genuine extension — and the `finishRead` conjunct at id 0, whose
asserted preconditions hold. -/
theorem outq_window_invariants_witness :
    (OutQ.mk 0 ["", ""] [true, false] [false, false] 0 []).Inv ∧
      ((((OutQ.mk 0 ["", ""] [true, false] [false, false] 0 []).beginRead 5).Inv ∧
          (OutQ.mk 0 ["", ""] [true, false] [false, false] 0 []).GrowsAtTail 5) ∧
        ((OutQ.mk 0 ["", ""] [true, false] [false, false] 0 []).FinishPre 0 →
          (OutQ.finishRead 2 (OutQ.mk 0 ["", ""] [true, false] [false, false] 0 []) "A" 0).Inv) ∧
        (OutQ.flushImpl 2 false (OutQ.mk 0 ["", ""] [true, false] [false, false] 0 [])).Inv ∧
        OutQ.ShrinksFromHead 2 false (OutQ.mk 0 ["", ""] [true, false] [false, false] 0 [])) :=
  ⟨⟨by decide, by decide,
      fun i h => absurd (getD_false_false_pair i ▸ h) (by decide)⟩,
    outq_window_invariants 2 (OutQ.mk 0 ["", ""] [true, false] [false, false] 0 []) 5 0 "A" false
      ⟨by decide, by decide,
        fun i h => absurd (getD_false_false_pair i ▸ h) (by decide)⟩⟩

/-- A freshly constructed reordering `OutputQueue`: `cur_ = 0`, empty window,
nothing flushed, empty output stream. -/
def OutQ.initQ : OutQ := ⟨0, [], [], [], 0, []⟩

/-- Valid call sequences against a reordering `OutputQueue`, tracking in
`fin : Nat → Bool` which ids have been finished so far.  `txt` gives the
output text each worker passes to `finishRead` for a given id (one record
text per id).  `beginStep` may be issued on any id not yet finished (the
code asserts `cur_ ≤ rdid`; issuing `beginRead` on a finished id is claim
C10's separate concern and is excluded here, since it discards the record);
`finishStep` requires the slot to be inside the window and the id not yet
finished (the code asserts both); `flushStep` may be issued at any time,
forced or not.  This models any interleaving, by any number of workers, of
the serialized (mutex-protected) queue operations. -/
inductive OutQReach (T : Nat) (txt : Nat → String) :
    (Nat → Bool) → OutQ → Prop where
  | init : OutQReach T txt (fun _ => false) OutQ.initQ
  | beginStep {fin : Nat → Bool} {s : OutQ} {rdid : Nat} :
      OutQReach T txt fin s → s.cur ≤ rdid → fin rdid = false →
      OutQReach T txt fin (s.beginRead rdid)
  | finishStep {fin : Nat → Bool} {s : OutQ} {rdid : Nat} :
      OutQReach T txt fin s →
      s.cur ≤ rdid → rdid - s.cur < s.finished.length → fin rdid = false →
      OutQReach T txt (fun k => if k = rdid then true else fin k)
        (OutQ.finishRead T s (txt rdid) rdid)
  | flushStep {fin : Nat → Bool} {s : OutQ} (force : Bool) :
      OutQReach T txt fin s →
      OutQReach T txt fin (OutQ.flushImpl T force s)

/-- Abstraction relation between a reordering queue state, the set of
finished ids and the texts: everything below `cur` is finished and already
on the output stream in id order; the window flags agree with `fin`; a
finished window slot holds its text; nothing at or beyond the window tail
is finished. -/
def ReorderAbs (txt : Nat → String) (fin : Nat → Bool) (s : OutQ) : Prop :=
  s.lines.length = s.finished.length ∧
    s.out = (List.range s.cur).map txt ∧
    (∀ k, k < s.cur → fin k = true) ∧
    (∀ i, i < s.finished.length → s.finished.getD i false = fin (s.cur + i)) ∧
    (∀ i, i < s.finished.length → fin (s.cur + i) = true →
      s.lines.getD i "" = txt (s.cur + i)) ∧
    (∀ k, s.cur + s.finished.length ≤ k → fin k = false)

theorem ReorderAbs_initQ (txt : Nat → String) :
    ReorderAbs txt (fun _ => false) OutQ.initQ := by
  refine ⟨rfl, rfl, ?_, ?_, ?_, ?_⟩ <;> intro k hk <;> simp [OutQ.initQ] at hk ⊢

theorem ReorderAbs_beginRead (txt : Nat → String) (fin : Nat → Bool) (s : OutQ)
    (rdid : Nat) (habs : ReorderAbs txt fin s) (hc : s.cur ≤ rdid)
    (hf : fin rdid = false) : ReorderAbs txt fin (s.beginRead rdid) := by
  obtain ⟨hlen, hout, hlow, hflag, htxt, hhigh⟩ := habs
  rw [OutQ.beginRead_def]
  set idx := rdid - s.cur with hidx
  have hrd : s.cur + idx = rdid := by omega
  refine ⟨?_, hout, hlow, ?_, ?_, ?_⟩
  · simp only [List.length_set, padTo_length, hlen]
  · intro i hi
    simp only [List.length_set, padTo_length] at hi
    simp only
    by_cases hieq : i = idx
    · subst hieq
      rw [getD_set_self _ _ _ _ (by rw [padTo_length]; omega), hrd, hf]
    · rw [getD_set_ne _ _ _ _ _ (fun h => hieq h.symm)]
      by_cases hlt : i < s.finished.length
      · rw [padTo_getD_lt _ _ _ _ _ hlt]
        exact hflag i hlt
      · rw [padTo_getD_ge _ _ _ _ (by omega)]
        exact (hhigh (s.cur + i) (by omega)).symm
  · intro i hi hfin
    simp only [List.length_set, padTo_length] at hi
    simp only
    by_cases hlt : i < s.finished.length
    · rw [padTo_getD_lt _ _ _ _ _ (by omega : i < s.lines.length)]
      exact htxt i hlt hfin
    · exfalso
      by_cases hieq : i = idx
      · subst hieq
        rw [hrd, hf] at hfin
        exact absurd hfin (by decide)
      · rw [hhigh (s.cur + i) (by omega)] at hfin
        exact absurd hfin (by decide)
  · intro k hk
    simp only [List.length_set, padTo_length] at hk
    exact hhigh k (by omega)

theorem ReorderAbs_flushImpl (txt : Nat → String) (fin : Nat → Bool) (s : OutQ)
    (T : Nat) (force : Bool) (habs : ReorderAbs txt fin s) :
    ReorderAbs txt fin (OutQ.flushImpl T force s) := by
  obtain ⟨hlen, hout, hlow, hflag, htxt, hhigh⟩ := habs
  unfold OutQ.flushImpl
  by_cases hcond : (force = true ∨ T ≤ s.nflush)
  · rw [if_pos hcond]
    have hn : s.nflush ≤ s.finished.length := nflush_le_length s
    have hprefix : ∀ i, i < s.nflush → s.finished.getD i false = true :=
      fun i hi => twLen_getD_true _ i hi
    have hfinlow : ∀ k, s.cur ≤ k → k < s.cur + s.nflush → fin k = true := by
      intro k h1 h2
      have := hprefix (k - s.cur) (by omega)
      rw [hflag (k - s.cur) (by omega)] at this
      have harith : s.cur + (k - s.cur) = k := by omega
      rwa [harith] at this
    refine ⟨?_, ?_, ?_, ?_, ?_, ?_⟩
    · simp only [List.length_drop, hlen]
    · simp only
      have htake : s.lines.take s.nflush =
          (List.range s.nflush).map (fun i => txt (s.cur + i)) := by
        apply List.ext_getElem
        · simp only [List.length_take, List.length_map, List.length_range]
          omega
        · intro i h1 h2
          have hi : i < s.nflush := by
            simp only [List.length_take] at h1; omega
          have hil : i < s.lines.length := by omega
          rw [List.getElem_take, List.getElem_map, List.getElem_range]
          rw [← List.getD_eq_getElem s.lines "" hil]
          exact htxt i (by omega) (hfinlow (s.cur + i) (by omega) (by omega))
      rw [hout, htake, List.range_add, List.map_append, List.map_map]
      rfl
    · intro k hk
      simp only at hk
      by_cases hlow2 : k < s.cur
      · exact hlow k hlow2
      · exact hfinlow k (by omega) (by omega)
    · intro i hi
      simp only [List.length_drop] at hi
      simp only
      rw [getD_drop, hflag (s.nflush + i) (by omega)]
      congr 1
      omega
    · intro i hi hfin
      simp only [List.length_drop] at hi
      simp only at hfin ⊢
      have harith : s.cur + s.nflush + i = s.cur + (s.nflush + i) := by omega
      rw [harith] at hfin
      rw [getD_drop, harith]
      exact htxt (s.nflush + i) (by omega) hfin
    · intro k hk
      simp only [List.length_drop] at hk
      exact hhigh k (by omega)
  · rw [if_neg hcond]
    exact ⟨hlen, hout, hlow, hflag, htxt, hhigh⟩

theorem ReorderAbs_finishRead (txt : Nat → String) (fin : Nat → Bool) (s : OutQ)
    (T : Nat) (rdid : Nat) (habs : ReorderAbs txt fin s) (hc : s.cur ≤ rdid)
    (hin : rdid - s.cur < s.finished.length) (hf : fin rdid = false) :
    ReorderAbs txt (fun k => if k = rdid then true else fin k)
      (OutQ.finishRead T s (txt rdid) rdid) := by
  obtain ⟨hlen, hout, hlow, hflag, htxt, hhigh⟩ := habs
  rw [OutQ.finishRead_def]
  apply ReorderAbs_flushImpl
  set idx := rdid - s.cur with hidx
  have hrd : s.cur + idx = rdid := by omega
  refine ⟨?_, hout, ?_, ?_, ?_, ?_⟩
  · simp only [List.length_set, hlen]
  · intro k hk
    simp only at hk
    have : k ≠ rdid := by omega
    simp only [if_neg this]
    exact hlow k hk
  · intro i hi
    simp only [List.length_set] at hi
    simp only
    by_cases hieq : i = idx
    · subst hieq
      rw [getD_set_self _ _ _ _ hi, hrd, if_pos rfl]
    · have hne : s.cur + i ≠ rdid := by omega
      rw [getD_set_ne _ _ _ _ _ (fun h => hieq h.symm), if_neg hne]
      exact hflag i hi
  · intro i hi hfin
    simp only [List.length_set] at hi
    simp only at hfin ⊢
    by_cases hieq : i = idx
    · subst hieq
      rw [getD_set_self _ _ _ _ (by omega : idx < s.lines.length), hrd]
    · have hne : s.cur + i ≠ rdid := by omega
      rw [if_neg hne] at hfin
      rw [getD_set_ne _ _ _ _ _ (fun h => hieq h.symm)]
      exact htxt i hi hfin
  · intro k hk
    simp only [List.length_set] at hk
    have hne : k ≠ rdid := by omega
    show (if k = rdid then true else fin k) = false
    rw [if_neg hne]
    exact hhigh k hk

theorem OutQReach_abs (T : Nat) (txt : Nat → String) (fin : Nat → Bool)
    (s : OutQ) (h : OutQReach T txt fin s) : ReorderAbs txt fin s := by
  induction h with
  | init => exact ReorderAbs_initQ txt
  | beginStep hr hc hf ih => exact ReorderAbs_beginRead txt _ _ _ ih hc hf
  | finishStep hr hc hin hf ih => exact ReorderAbs_finishRead txt _ _ T _ ih hc hin hf
  | flushStep force hr ih => exact ReorderAbs_flushImpl txt _ _ T force ih

/-- C1: with reordering enabled, for any valid sequence of
`beginRead`/`finishRead` calls (with any interleaved flushes) after which
exactly the ids `0..N-1` have been finished — in any completion order —
a forced flush leaves the output stream containing exactly the `N` stored
texts in strictly increasing id order, none missing and none duplicated. -/
theorem reorder_order_preservation (T N : Nat) (txt : Nat → String)
    (fin : Nat → Bool) (s : OutQ) (hreach : OutQReach T txt fin s)
    (hN : ∀ k, fin k = true ↔ k < N) :
    (OutQ.flushImpl T true s).out = (List.range N).map txt := by
  have habs := OutQReach_abs T txt fin s hreach
  have habs' := ReorderAbs_flushImpl txt fin s T true habs
  obtain ⟨hlen, hout, hlow, hflag, htxt, hhigh⟩ := habs
  have hcurN : s.cur ≤ N := by
    by_contra hgt
    push_neg at hgt
    exact absurd ((hN N).mp (hlow N hgt)) (lt_irrefl N)
  have hcov : N - s.cur ≤ s.finished.length := by
    rcases Nat.eq_or_lt_of_le hcurN with heq | hlt
    · omega
    · by_contra hno
      push_neg at hno
      have hN1 : fin (N - 1) = true := (hN (N - 1)).mpr (by omega)
      rw [hhigh (N - 1) (by omega)] at hN1
      exact absurd hN1 (by decide)
  have hnfl : s.nflush = N - s.cur := by
    apply twLen_eq _ _ hcov
    · intro i hi
      rw [hflag i (by omega)]
      exact (hN _).mpr (by omega)
    · rcases Nat.eq_or_lt_of_le hcov with heq | hlt
      · left; omega
      · right
        rw [hflag (N - s.cur) (by omega)]
        cases hb : fin (s.cur + (N - s.cur)) with
        | false => rfl
        | true => exact absurd ((hN _).mp hb) (by omega)
  obtain ⟨_, hout', _, _, _, _⟩ := habs'
  have hcur' : (OutQ.flushImpl T true s).cur = s.cur + s.nflush := by
    unfold OutQ.flushImpl
    rw [if_pos (Or.inl rfl)]
  rw [hout', hcur', hnfl]
  congr 2
  omega

/-- Record texts used by the C1 witness. -/
def wtxt : Nat → String := fun k => if k = 0 then "A" else "B"

/-- Witness for C1: ids 0 and 1 are begun in order but finished out of
order (1 first, then 0, with threshold 3 so nothing flushes early); the
forced flush emits both texts in id order. -/
theorem reorder_order_preservation_witness :
    (OutQ.flushImpl 3 true
        (OutQ.finishRead 3
          (OutQ.finishRead 3 ((OutQ.initQ.beginRead 0).beginRead 1) (wtxt 1) 1)
          (wtxt 0) 0)).out = (List.range 2).map wtxt := by
  have h0 : OutQReach 3 wtxt (fun _ => false) OutQ.initQ := OutQReach.init
  have h1 : OutQReach 3 wtxt (fun _ => false) (OutQ.initQ.beginRead 0) :=
    OutQReach.beginStep h0 (by decide) rfl
  have h2 : OutQReach 3 wtxt (fun _ => false)
      ((OutQ.initQ.beginRead 0).beginRead 1) :=
    OutQReach.beginStep h1 (by decide) rfl
  have h3 : OutQReach 3 wtxt (fun k => if k = 1 then true else false)
      (OutQ.finishRead 3 ((OutQ.initQ.beginRead 0).beginRead 1) (wtxt 1) 1) :=
    OutQReach.finishStep h2 (by decide) (by decide) rfl
  have h4 : OutQReach 3 wtxt
      (fun k => if k = 0 then true else if k = 1 then true else false)
      (OutQ.finishRead 3
        (OutQ.finishRead 3 ((OutQ.initQ.beginRead 0).beginRead 1) (wtxt 1) 1)
        (wtxt 0) 0) :=
    OutQReach.finishStep h3 (by decide) (by decide) rfl
  refine reorder_order_preservation 3 2 wtxt _ _ h4 ?_
  intro k
  rcases k with _ | _ | k
  · simp
  · simp
  · constructor
    · intro h
      exact absurd h (by simp)
    · intro h
      omega

/-!
Models of the dispatch loops in `src/pat.cpp`.  A single
`nextBatchFromFile` (or inner `nextBatch`) result is a pair
`(done, count) : Bool × Nat` — `done` says the underlying input is
exhausted, `count` is the number of records read (a byte count for the
FASTQ light parser).  File reading itself is abstracted as an oracle list
of such results, consumed in order; what is modelled faithfully is the
control flow of the loops around those calls.
-/

/-- The inner retry loop `do { ret = nextBatchFromFile(...); } while(!done
&& nread == 0)` shared by the dispatch loops (src/pat.cpp:479-483,
437-440, 203-208): consume oracle results until one is terminal
(`done`) or nonempty; `none` if the oracle list runs out (the loop
would still be spinning). -/
def drawUntil : List (Bool × Nat) → Option ((Bool × Nat) × List (Bool × Nat))
  | [] => none
  | r :: rs => if r.1 = false ∧ r.2 = 0 then drawUntil rs else some (r, rs)

theorem drawUntil_length (orc : List (Bool × Nat)) (r : Bool × Nat)
    (rs : List (Bool × Nat)) (h : drawUntil orc = some (r, rs)) :
    rs.length < orc.length := by
  induction orc generalizing r rs with
  | nil => simp [drawUntil] at h
  | cons a l ih =>
    by_cases ha : a.1 = false ∧ a.2 = 0
    · rw [drawUntil, if_pos ha] at h
      have := ih r rs h
      simp only [List.length_cons]
      omega
    · rw [drawUntil, if_neg ha] at h
      cases h
      simp

/-- Model of `SoloPatternComposer::nextBatch` (src/pat.cpp:198-221): walk
the source list from index `cur`; at each source run the inner retry
loop; on an exhausted-and-empty result advance the shared index and move
to the next source; surface the first result with a nonzero count; when
the source list is exhausted return `(true, 0)`.  `srcs` gives, for each
source, the successive results of its `nextBatch`; `none` models a retry
loop that never exits. -/
def soloNextBatch (srcs : List (List (Bool × Nat))) (cur : Nat) :
    Option (Bool × Nat) :=
  if h : cur < srcs.length then
    match drawUntil (srcs.get ⟨cur, h⟩) with
    | none => none
    | some (res, _) =>
      if res.2 = 0 then soloNextBatch srcs (cur + 1) else some res
  else some (true, 0)
termination_by srcs.length - cur

theorem soloNextBatch_empty_done (srcs : List (List (Bool × Nat))) :
    ∀ (fuel cur : Nat) (res : Bool × Nat), srcs.length - cur ≤ fuel →
      soloNextBatch srcs cur = some res → (res.2 = 0 → res.1 = true) := by
  intro fuel
  induction fuel with
  | zero =>
    intro cur res hf h
    rw [soloNextBatch.eq_def, dif_neg (by omega : ¬ cur < srcs.length)] at h
    cases h
    intro _
    rfl
  | succ k ih =>
    intro cur res hf h
    rw [soloNextBatch.eq_def] at h
    by_cases hlt : cur < srcs.length
    · rw [dif_pos hlt] at h
      cases hdraw : drawUntil (srcs.get ⟨cur, hlt⟩) with
      | none =>
        rw [hdraw] at h
        simp at h
      | some pr =>
        obtain ⟨r, rest⟩ := pr
        rw [hdraw] at h
        dsimp only at h
        by_cases hz : r.2 = 0
        · rw [if_pos hz] at h
          exact ih (cur + 1) res (by omega) h
        · rw [if_neg hz] at h
          cases h
          intro habs
          exact absurd habs hz
    · rw [dif_neg hlt] at h
      cases h
      intro _
      rfl

/-- Model of the termination test in `PatternSourcePerThread::nextReadPair`
(src/pat.cpp:159-163): having requested a batch, the reader reports
overall termination (`make_pair(false, true)`) iff the dispatcher result
is exhausted (`res.first`) with zero records (`res.second == 0`). -/
def nextReadPairDone (res : Bool × Nat) : Bool :=
  res.1 && decide (res.2 = 0)

/-- C8: the per-worker reader reports overall termination only when a
requested batch comes back empty and the dispatcher simultaneously
signals exhaustion; the composer's draw loop never surfaces an
empty-but-not-exhausted result (any surfaced empty result carries the
exhausted flag), and its inner retry loop skips every
empty-but-not-exhausted oracle result. -/
theorem nextReadPair_done_only_when_exhausted
    (srcs : List (List (Bool × Nat))) (cur : Nat) (res : Bool × Nat)
    (h : soloNextBatch srcs cur = some res) :
    (res.2 = 0 → res.1 = true) ∧
      (nextReadPairDone res = true ↔ res.1 = true ∧ res.2 = 0) ∧
      ∀ rs, drawUntil ((false, 0) :: rs) = drawUntil rs := by
  refine ⟨?_, ?_, ?_⟩
  · exact soloNextBatch_empty_done srcs (srcs.length - cur) cur res (Nat.le_refl _) h
  · unfold nextReadPairDone
    constructor
    · intro hb
      have := Bool.and_eq_true_iff.mp hb
      exact ⟨this.1, of_decide_eq_true this.2⟩
    · intro ⟨h1, h2⟩
      rw [h1, h2]
      rfl
  · intro rs
    rw [drawUntil, if_pos ⟨rfl, rfl⟩]

/-- Witness for C8: one source that first reports empty-but-not-exhausted
and then yields a 3-record batch; the surfaced result is the nonempty one. -/
theorem nextReadPair_done_only_when_exhausted_witness :
    soloNextBatch [[(false, 0), (false, 3)]] 0 = some (false, 3) ∧
      (((false, 3) : Bool × Nat).2 = 0 → ((false, 3) : Bool × Nat).1 = true) ∧
      (nextReadPairDone (false, 3) = true ↔
        ((false, 3) : Bool × Nat).1 = true ∧ ((false, 3) : Bool × Nat).2 = 0) ∧
      ∀ rs, drawUntil ((false, 0) :: rs) = drawUntil rs :=
  ⟨by rw [soloNextBatch.eq_def]; simp [drawUntil],
    nextReadPair_done_only_when_exhausted [[(false, 0), (false, 3)]] 0 (false, 3)
      (by rw [soloNextBatch.eq_def]; simp [drawUntil])⟩

/-- Error message printed by `DualPatternComposer::nextBatch` when the
end-A draw yields fewer records than the end-B draw (src/pat.cpp:264-265). -/
def msgFewerIn1 : String :=
  "Error, fewer reads in file specified with -1 than in file specified with -2"

/-- Error message printed by `DualPatternComposer::nextBatch` when the
end-B draw yields fewer records than the end-A draw (src/pat.cpp:275-276). -/
def msgFewerIn2 : String :=
  "Error, fewer reads in file specified with -2 than in file specified with -1"

/-- Model of `DualPatternComposer::nextBatch` (src/pat.cpp:228-286) for a
composer in which every position of the parallel end-A/end-B source lists
is a genuine pair (`(*srcb_)[cur] != NULL`).  `orc cur` gives the results
`(resa, resb)` of the joint (lock-protected) draw from pair `cur`; `n` is
the length of the source lists, `cur` the shared pair index `cur_`.  The
fatal `throw 1` after printing a diagnostic is modelled as `Except.error`
carrying the printed message; both sides exhausted advances to the next
pair; the end of the list returns `(true, 0)`. -/
def dualNextBatch (orc : Nat → (Bool × Nat) × (Bool × Nat)) (n cur : Nat) :
    Except String (Bool × Nat) :=
  if h : cur < n then
    let resa := (orc cur).1
    let resb := (orc cur).2
    if resa.2 < resb.2 then .error msgFewerIn1
    else if resa.2 = 0 ∧ resb.2 = 0 then dualNextBatch orc n (cur + 1)
    else if resb.2 < resa.2 then .error msgFewerIn2
    else .ok resa
  else .ok (true, 0)
termination_by n - cur

/-- C3: in paired-file dispatch, whenever the joint draw from the end-A and
end-B sources of the current pair returns different record counts,
`nextBatch` raises a fatal error — it never returns a batch — and the
diagnostic names which side was shorter: the "fewer reads in file
specified with -2" message when end-B yielded fewer than end-A, and the
"fewer reads in file specified with -1" message in the opposite case. -/
theorem dual_mismatch_fatal (orc : Nat → (Bool × Nat) × (Bool × Nat))
    (n cur : Nat) (hlt : cur < n)
    (hneq : ((orc cur).1).2 ≠ ((orc cur).2).2) :
    dualNextBatch orc n cur =
      .error (if ((orc cur).2).2 < ((orc cur).1).2 then msgFewerIn2
              else msgFewerIn1) := by
  rw [dualNextBatch.eq_def, dif_pos hlt]
  dsimp only
  by_cases hab : ((orc cur).1).2 < ((orc cur).2).2
  · rw [if_pos hab, if_neg (by omega)]
  · rw [if_neg hab, if_neg (by omega : ¬ (((orc cur).1).2 = 0 ∧ ((orc cur).2).2 = 0)),
      if_pos (by omega), if_pos (by omega)]

/-- Witness for C3: the end-A source yields 10 records while end-B yields
only 8; the dispatcher aborts with the "fewer reads in file specified
with -2" diagnostic. -/
theorem dual_mismatch_fatal_witness :
    0 < 1 ∧
      ((fun _ => ((true, 10), (true, 8)) :
          Nat → (Bool × Nat) × (Bool × Nat)) 0).1.2 ≠
        ((fun _ => ((true, 10), (true, 8)) :
          Nat → (Bool × Nat) × (Bool × Nat)) 0).2.2 ∧
      dualNextBatch (fun _ => ((true, 10), (true, 8))) 1 0 =
        .error msgFewerIn2 :=
  ⟨by decide, by decide, by
    have := dual_mismatch_fatal (fun _ => ((true, 10), (true, 8))) 1 0
      (by decide) (by decide)
    simpa using this⟩

/-- Shared per-source state of `CFilePatternSource` relevant to dispatch:
the shared record counter `readCnt_`, the file cursor `filecur_` and the
number of input files `infiles_.size()`. -/
structure CFileSrc where
  readCnt : Nat
  filecur : Nat
  nfiles : Nat
deriving Repr, DecidableEq

/-- The outer `while(true)` of `CFilePatternSource::nextBatch`
(src/pat.cpp:478-493): run the inner retry loop; when the current file is
done and more files remain, open the next file, reset, advance `filecur_`
and — only if the last draw was empty — loop again on the fresh file.
Returns the surfaced `(done, nread)`, the final `filecur` and the unused
oracle suffix; `none` if the oracle runs out. -/
def fileLoop (orc : List (Bool × Nat)) (filecur nfiles : Nat) :
    Option ((Bool × Nat) × Nat × List (Bool × Nat)) :=
  match hdr : drawUntil orc with
  | none => none
  | some (r, rs) =>
    if r.1 = true ∧ filecur < nfiles then
      if r.2 = 0 then
        have : rs.length < orc.length := drawUntil_length orc r rs hdr
        fileLoop rs (filecur + 1) nfiles
      else some (r, filecur + 1, rs)
    else some (r, filecur, rs)
termination_by orc.length

/-- Model of `CFilePatternSource::nextBatch` (src/pat.cpp:465-497); the
structure of `BufferedFilePatternSource::nextBatch` (src/pat.cpp:423-454)
is identical.  On entry the batch's base record id is set from the shared
counter (`pt.setReadId(readCnt_)`, line 477); after the file loop the
counter is advanced once, by the surfaced count (`readCnt_ += nread`, line
495).  `orc` is the oracle of `nextBatchFromFile` results (file opening
and `resetForNextFile` are folded into it; `open()` itself is modelled
separately for claim C7).  The result is the batch descriptor
`(base, done, nread)`, the new source state and the unused oracle. -/
def cfileNextBatch (s : CFileSrc) (orc : List (Bool × Nat)) :
    Option ((Nat × Bool × Nat) × CFileSrc × List (Bool × Nat)) :=
  match fileLoop orc s.filecur s.nfiles with
  | none => none
  | some (r, fc, rs) =>
    some ((s.readCnt, r.1, r.2), ⟨s.readCnt + r.2, fc, s.nfiles⟩, rs)

theorem cfileNextBatch_spec (s : CFileSrc) (orc : List (Bool × Nat))
    (base : Nat) (done : Bool) (nread : Nat) (s' : CFileSrc)
    (rem : List (Bool × Nat))
    (h : cfileNextBatch s orc = some ((base, done, nread), s', rem)) :
    base = s.readCnt ∧ s'.readCnt = s.readCnt + nread ∧ s'.nfiles = s.nfiles := by
  unfold cfileNextBatch at h
  cases hfl : fileLoop orc s.filecur s.nfiles with
  | none => rw [hfl] at h; cases h
  | some v =>
    obtain ⟨r, fc, rs⟩ := v
    rw [hfl] at h
    cases h
    exact ⟨rfl, rfl, rfl⟩

/-- A whole run: draw batches one after another (each drawn under the
source's lock, so the draws are serialized regardless of which thread
performs each), with `orcs` supplying the per-call oracle; collect each
batch's `(base id, count)`.  Stops if an oracle runs out. -/
def cfileRun (s : CFileSrc) (orcs : List (List (Bool × Nat))) :
    List (Nat × Nat) :=
  match orcs with
  | [] => []
  | orc :: rest =>
    match cfileNextBatch s orc with
    | none => []
    | some ((base, _, nread), s', _) => (base, nread) :: cfileRun s' rest

/-- C2: every call to `nextBatch` sets the batch's base record id from the
single shared counter `readCnt_` and advances that counter exactly once
per drawn batch, by the count the batch surfaced (for the FASTQ
byte-oriented path that count is a byte count, as the claim notes); hence
over a whole run the record ids covered by the successive batches,
`[base, base + nread)` each, form the single gapless strictly increasing
range that starts at the initial counter value — regardless of which
thread performed each draw, since every draw runs under the source's
lock. -/
theorem cfile_ids_gapless (s : CFileSrc) (orc : List (Bool × Nat))
    (orcs : List (List (Bool × Nat))) (base : Nat) (done : Bool)
    (nread : Nat) (s' : CFileSrc) (rem : List (Bool × Nat))
    (h : cfileNextBatch s orc = some ((base, done, nread), s', rem)) :
    (base = s.readCnt ∧ s'.readCnt = s.readCnt + nread) ∧
      (cfileRun s orcs).flatMap (fun p => List.range' p.1 p.2) =
        List.range' s.readCnt (((cfileRun s orcs).map Prod.snd).sum) := by
  obtain ⟨h1, h2, h3⟩ := cfileNextBatch_spec s orc base done nread s' rem h
  refine ⟨⟨h1, h2⟩, ?_⟩
  clear h h1 h2 h3
  induction orcs generalizing s with
  | nil => simp [cfileRun]
  | cons o rest ih =>
    rw [cfileRun]
    cases hnb : cfileNextBatch s o with
    | none => simp
    | some v =>
      obtain ⟨⟨b, d, n⟩, s2, rm⟩ := v
      obtain ⟨hb, hcnt, hnf⟩ := cfileNextBatch_spec s o b d n s2 rm hnb
      clear hnf
      dsimp only
      rw [List.flatMap_cons, List.map_cons, List.sum_cons, ih s2]
      rw [hb, hcnt]
      have hap := List.range'_append s.readCnt n
        (((cfileRun s2 rest).map Prod.snd).sum) 1
      rw [Nat.one_mul] at hap
      rw [hap]
      congr 1
      omega

/-- Witness for C2: two batches of 3 and 2 records drawn from an oracle;
the id ranges concatenate to the gapless range 0..4. -/
theorem cfile_ids_gapless_witness :
    cfileNextBatch (CFileSrc.mk 0 1 1) [(false, 3)] =
        some ((0, false, 3), CFileSrc.mk 3 1 1, []) ∧
      ((0 = (CFileSrc.mk 0 1 1).readCnt ∧
          (CFileSrc.mk 3 1 1).readCnt = (CFileSrc.mk 0 1 1).readCnt + 3) ∧
        (cfileRun (CFileSrc.mk 0 1 1) [[(false, 3)], [(true, 2)]]).flatMap
            (fun p => List.range' p.1 p.2) =
          List.range' (CFileSrc.mk 0 1 1).readCnt
            (((cfileRun (CFileSrc.mk 0 1 1) [[(false, 3)], [(true, 2)]]).map
                Prod.snd).sum)) :=
  ⟨by unfold cfileNextBatch; rw [fileLoop.eq_def]; simp [drawUntil],
    cfile_ids_gapless (CFileSrc.mk 0 1 1) [(false, 3)]
      [[(false, 3)], [(true, 2)]] 0 false 3 (CFileSrc.mk 3 1 1) []
      (by unfold cfileNextBatch; rw [fileLoop.eq_def]; simp [drawUntil])⟩

/-- Model of `CFilePatternSource::open` (src/pat.cpp:532-558); the structure
of `BufferedFilePatternSource::open` (src/pat.cpp:502-527) is identical.
`canOpen j` says whether file `j` of `infiles_` can be opened (`"-"`,
i.e. stdin, counts as openable); `errs` is the per-file already-warned
array `errs_`; `filecur` is the cursor `filecur_` at entry — `0` for the
first open and otherwise one past the file just exhausted (the cursor is
advanced right after each successful open).  The result is `none` for the
fatal path `cerr << "Error: No input read files were valid"; exit(1)`,
or `some (j, errs', warned)`: the index of the file actually opened, the
updated warned-array, and the indices for which the
"Warning: Could not open read file ... skipping..." line was printed
during this call. -/
def cfileOpen (canOpen : Nat → Bool) (nfiles : Nat) (errs : List Bool)
    (filecur : Nat) : Option (Nat × List Bool × List Nat) :=
  if h : filecur < nfiles then
    if canOpen filecur then some (filecur, errs, [])
    else
      match cfileOpen canOpen nfiles (errs.set filecur true) (filecur + 1) with
      | none => none
      | some (j, e, ws) =>
        some (j, e, (if errs.getD filecur false then [] else [filecur]) ++ ws)
  else none
termination_by nfiles - filecur

theorem cfileOpen_spec_aux (canOpen : Nat → Bool) (nfiles : Nat) :
    ∀ (fuel filecur : Nat) (errs : List Bool), nfiles - filecur ≤ fuel →
      ((cfileOpen canOpen nfiles errs filecur = none ↔
          ∀ j, filecur ≤ j → j < nfiles → canOpen j = false) ∧
        (∀ j e ws, cfileOpen canOpen nfiles errs filecur = some (j, e, ws) →
          filecur ≤ j ∧ j < nfiles ∧ canOpen j = true ∧
            (∀ i, filecur ≤ i → i < j → canOpen i = false) ∧
            ws = (List.range' filecur (j - filecur)).filter
              (fun i => !errs.getD i false))) := by
  intro fuel
  induction fuel with
  | zero =>
    intro filecur errs hf
    rw [cfileOpen.eq_def, dif_neg (by omega : ¬ filecur < nfiles)]
    constructor
    · constructor
      · intro _ j h1 h2
        omega
      · intro _
        rfl
    · intro j e ws h
      cases h
  | succ k ih =>
    intro filecur errs hf
    by_cases hlt : filecur < nfiles
    · rw [cfileOpen.eq_def, dif_pos hlt]
      by_cases hco : canOpen filecur = true
      · rw [if_pos hco]
        constructor
        · constructor
          · intro habs
            cases habs
          · intro hall
            rw [hall filecur (Nat.le_refl _) hlt] at hco
            cases hco
        · intro j e ws h
          cases h
          refine ⟨Nat.le_refl _, hlt, hco, fun i h1 h2 => absurd h2 (by omega), ?_⟩
          rw [Nat.sub_self]
          rfl
      · rw [if_neg hco]
        have hco' : canOpen filecur = false := by
          cases hcc : canOpen filecur
          · rfl
          · exact absurd hcc hco
        obtain ⟨ihn, ihs⟩ := ih (filecur + 1) (errs.set filecur true) (by omega)
        cases hrec : cfileOpen canOpen nfiles (errs.set filecur true) (filecur + 1) with
        | none =>
          dsimp only
          constructor
          · constructor
            · intro _ j h1 h2
              by_cases hj : j = filecur
              · subst hj; exact hco'
              · exact (ihn.mp hrec) j (by omega) h2
            · intro _
              rfl
          · intro j e ws h
            cases h
        | some v =>
          obtain ⟨j0, e0, ws0⟩ := v
          dsimp only
          obtain ⟨hj1, hj2, hj3, hj4, hj5⟩ := ihs j0 e0 ws0 hrec
          constructor
          · constructor
            · intro habs
              cases habs
            · intro hall
              rw [hall j0 (by omega) hj2] at hj3
              cases hj3
          · intro j e ws h
            injection h with h'
            injection h' with hj hw
            injection hw with he hws
            subst hj
            subst he
            subst hws
            refine ⟨by omega, hj2, hj3, ?_, ?_⟩
            · intro i h1 h2
              by_cases hi : i = filecur
              · subst hi; exact hco'
              · exact hj4 i (by omega) h2
            · have hsplit : j0 - filecur = (j0 - (filecur + 1)) + 1 := by omega
              rw [hsplit, List.range'_succ, List.filter_cons]
              have hw0 : ws0 = (List.range' (filecur + 1) (j0 - (filecur + 1))).filter
                  (fun i => !errs.getD i false) := by
                rw [hj5]
                apply List.filter_congr
                intro x hx
                have hxge : filecur + 1 ≤ x := by
                  have := List.mem_range'_1.mp hx
                  omega
                rw [getD_set_ne _ _ _ _ _ (by omega : filecur ≠ x)]
              rw [← hw0]
              cases herr : errs.getD filecur false
              · simp only [Bool.not_false, if_pos]
                rfl
              · simp only [Bool.not_true, if_neg]
                rfl
    · rw [cfileOpen.eq_def, dif_neg hlt]
      constructor
      · constructor
        · intro _ j h1 h2
          omega
        · intro _
          rfl
      · intro j e ws h
        cases h

/-- Counterexample for C7 as stated: in the two-file list where file 0 is
openable and file 1 is not, the `open()` call issued once file 0 is
exhausted (cursor at 1, one past the opened file) reaches the fatal
`exit(1)` path — even though a file of the list (file 0) can be opened.
The abort is therefore not restricted to the case that no file in the
entire list can be opened. -/
theorem cfileOpen_fatal_despite_openable :
    cfileOpen (fun j => decide (j = 0)) 2 [false, false] 1 = none ∧
      (fun j => decide (j = 0)) 0 = true := by
  constructor
  · rw [cfileOpen.eq_def]
    norm_num
    rw [cfileOpen.eq_def]
    norm_num
  · rfl

/-- C7 amended: a file that cannot be opened is skipped, with the warning
printed only the first time that file fails (guarded by `errs_`), and
processing continues with the next openable file; the fatal
"No input read files were valid" abort happens exactly when no file from
the current cursor position to the end of the list can be opened.  For the
initial call (`filecur = 0`) that is indeed "no file in the entire list",
but for mid-run calls the cursor sits one past the exhausted file, so a
run whose remaining files are all unopenable aborts even when earlier
files were valid. -/
theorem cfileOpen_skip_or_fatal (canOpen : Nat → Bool) (nfiles : Nat)
    (errs : List Bool) (filecur : Nat) :
    (cfileOpen canOpen nfiles errs filecur = none ↔
        ∀ j, filecur ≤ j → j < nfiles → canOpen j = false) ∧
      (∀ j e ws, cfileOpen canOpen nfiles errs filecur = some (j, e, ws) →
        filecur ≤ j ∧ j < nfiles ∧ canOpen j = true ∧
          (∀ i, filecur ≤ i → i < j → canOpen i = false) ∧
          ws = (List.range' filecur (j - filecur)).filter
            (fun i => !errs.getD i false)) :=
  cfileOpen_spec_aux canOpen nfiles (nfiles - filecur) filecur errs (Nat.le_refl _)

/-!
Model of the record-boundary extension phase of
`FastqPatternSource::nextBatchFromFile` (src/pat.cpp:1018-1091): after the
main fill loop has read `max_raw_buf_` bytes, the code keeps reading into
the reserved head-room (`(max_raw_buf_ - bytes_read) + max_raw_buf_overrun_`)
until it has seen the start of a new FASTQ record (a line that began with
`'@'` followed by a sequence-looking byte, the heuristic of
src/pat.cpp:1045-1051) and then four newlines — i.e. until the whole next
record is in the buffer — or until EOF or head-room exhaustion.
-/

/-- A byte ends a line: `c == '\n' || c == '\r'`. -/
def isNl (c : Char) : Bool := c == '\n' || c == '\r'

/-- The heuristic sequence-line-start test of src/pat.cpp:1048:
`c >= 65 || c == '*' || c == '-'`; the peeked byte may be EOF (`none`),
which never qualifies. -/
def seqStartB : Option Char → Bool
  | some c => decide (65 ≤ c.toNat) || c == '*' || c == '-'
  | none => false

/-- Increment applied to `newlines` when the freshly fetched byte is a
newline (src/pat.cpp:1054-1055). -/
def headNl : Option Char → Nat
  | some d => if isNl d then 1 else 0
  | none => 0

/-- Scan state of the extension loop: `i` counts bytes written into the
head-room, `pls` is `prev_line_start_c` (`none` for the `-1` sentinel or
EOF), `nr` is `new_record`, `nl` is `newlines`. -/
structure FqScan where
  i : Nat
  pls : Option Char
  nr : Bool
  nl : Nat
deriving Repr, DecidableEq

/-- One iteration of the loop body (src/pat.cpp:1035-1055) on the held byte
`ch` with freshly fetched byte `c'`: write `ch`, run the new-record
detection against the previous line's first byte, update
`prev_line_start_c` when `ch` ended a line, and count `c'` if it is a
newline. -/
def fqStep (st : FqScan) (ch : Char) (c' : Option Char) : FqScan :=
  let detect := !st.nr && isNl ch && (st.pls == some '@') && seqStartB c'
  { i := st.i + 1
    pls := if isNl ch then c' else st.pls
    nr := st.nr || detect
    nl := (if detect then 1 else st.nl) + headNl c' }

/-- The extension `while` loop (src/pat.cpp:1033-1056).  The input list is
the remaining byte stream; the byte held in `c` is the head of the list
(the code fetches `c` just before the loop and re-fetches inside it).
Returns the bytes appended to the scratch buffer, the final scan state,
and the remaining stream still headed by the held byte (empty = EOF). -/
def fqLoop (headroom : Nat) (st : FqScan) : List Char → List Char × FqScan × List Char
  | [] => ([], st, [])
  | ch :: rest =>
    if st.i < headroom ∧ (st.nr = false ∨ st.nl < 4) then
      let r := fqLoop headroom (fqStep st ch rest.head?) rest
      (ch :: r.1, r.2)
    else ([], st, ch :: rest)

/-- The extension phase entered with a fresh scan state, followed by the
trailing-newline write of src/pat.cpp:1058-1059 (`if(c >= 0 && i <
headroom) readBuf[bytes_read+i] = c;`); `done = c < 0`
(src/pat.cpp:1060).  Returns the bytes appended to the buffer, `done`,
and the unread remainder of the stream. -/
def fqExtend (headroom : Nat) (inp : List Char) : List Char × Bool × List Char :=
  match fqLoop headroom ⟨0, none, false, 0⟩ inp with
  | (acc, _, []) => (acc, true, [])
  | (acc, st, ch :: rest) =>
    if st.i < headroom then (acc ++ [ch], false, rest) else (acc, false, rest)

theorem fqStep_nonl (st : FqScan) (ch : Char) (c' : Option Char)
    (h : isNl ch = false) :
    fqStep st ch c' = ⟨st.i + 1, st.pls, st.nr, st.nl + headNl c'⟩ := by
  unfold fqStep
  rw [h]
  simp

theorem fqLoop_cons (headroom : Nat) (st : FqScan) (ch : Char)
    (rest : List Char) (hi : st.i < headroom)
    (hc : st.nr = false ∨ st.nl < 4) :
    fqLoop headroom st (ch :: rest) =
      (ch :: (fqLoop headroom (fqStep st ch rest.head?) rest).1,
        (fqLoop headroom (fqStep st ch rest.head?) rest).2) := by
  rw [fqLoop, if_pos ⟨hi, hc⟩]

theorem fqLoop_exit (headroom : Nat) (st : FqScan) (ch : Char)
    (rest : List Char)
    (hc : ¬ (st.i < headroom ∧ (st.nr = false ∨ st.nl < 4))) :
    fqLoop headroom st (ch :: rest) = ([], st, ch :: rest) := by
  rw [fqLoop, if_neg hc]

/-- Newline bump accumulated while a non-newline segment `cs` is consumed
ahead of `inp`: only the final peek (the head of `inp`) can be a newline,
and only if the segment is nonempty. -/
def nlBump (cs inp : List Char) : Nat :=
  if cs.isEmpty then 0 else headNl inp.head?

theorem fqLoop_seg (headroom : Nat) (cs : List Char)
    (hcs : ∀ c ∈ cs, isNl c = false) :
    ∀ (st : FqScan) (inp : List Char), st.i + cs.length ≤ headroom →
      (cs = [] ∨ st.nr = false ∨ st.nl < 4) →
      fqLoop headroom st (cs ++ inp) =
        (cs ++ (fqLoop headroom
            ⟨st.i + cs.length, st.pls, st.nr, st.nl + nlBump cs inp⟩ inp).1,
          (fqLoop headroom
            ⟨st.i + cs.length, st.pls, st.nr, st.nl + nlBump cs inp⟩ inp).2) := by
  induction cs with
  | nil =>
    intro st inp hi hc
    simp [nlBump]
  | cons x cs ih =>
    intro st inp hi hc
    have hx : isNl x = false := hcs x (by simp)
    have hcond : st.nr = false ∨ st.nl < 4 := by
      rcases hc with h | h
      · cases h
      · exact h
    rw [List.cons_append,
      fqLoop_cons headroom st x (cs ++ inp)
        (by simp only [List.length_cons] at hi; omega) hcond,
      fqStep_nonl st x _ hx]
    cases cs with
    | nil =>
      simp only [List.nil_append, List.length_cons, List.length_nil]
      simp [nlBump, headNl]
    | cons y cs2 =>
      have hy : isNl y = false := hcs y (by simp)
      have hbump : headNl ((y :: cs2) ++ inp).head? = 0 := by
        simp [headNl, hy]
      rw [hbump]
      have hrec := ih (fun c hcv => hcs c (by simp [hcv]))
        ⟨st.i + 1, st.pls, st.nr, st.nl + 0⟩ inp
        (by simp only [List.length_cons] at hi ⊢; omega)
        (Or.inr hcond)
      simp only at hrec
      rw [hrec]
      simp only [List.cons_append, List.length_cons]
      have h1 : st.i + 1 + (cs2.length + 1) = st.i + (cs2.length + 1 + 1) := by
        omega
      have h2 : st.nl + 0 + nlBump (y :: cs2) inp =
          st.nl + nlBump (x :: y :: cs2) inp := by
        simp [nlBump]
      rw [h1, h2]

theorem headNl_newline : headNl (some '\n') = 1 := rfl

theorem headNl_nonl (d : Char) (h : isNl d = false) : headNl (some d) = 0 := by
  simp [headNl, h]

theorem fqStep_nl_nr (st : FqScan) (c' : Option Char) (h : st.nr = true) :
    fqStep st '\n' c' = ⟨st.i + 1, c', true, st.nl + headNl c'⟩ := by
  unfold fqStep
  rw [h]
  rfl

theorem fqStep_nl_nopls (st : FqScan) (c' : Option Char) (hn : st.nr = false)
    (hp : st.pls = none) :
    fqStep st '\n' c' = ⟨st.i + 1, c', false, st.nl + headNl c'⟩ := by
  unfold fqStep
  rw [hn, hp]
  rfl

theorem fqStep_detect (st : FqScan) (c' : Option Char) (hn : st.nr = false)
    (hp : st.pls = some '@') (hs : seqStartB c' = true) :
    fqStep st '\n' c' = ⟨st.i + 1, c', true, 1 + headNl c'⟩ := by
  unfold fqStep
  rw [hn, hp, hs]
  rfl

/-- In-record scan: once the new-record heuristic has fired (`nr = true`,
`newlines = 1`, right after the next record's header line), the loop
consumes exactly the sequence line, the `+` line and the quality line of
that record and stops at the quality line's newline with `newlines = 4`. -/
theorem fqPhase2 (headroom : Nat) (s0 : Char) (stl plus qual rest : List Char)
    (hs0 : isNl s0 = false)
    (hstl : ∀ c ∈ stl, isNl c = false)
    (hplus : ∀ c ∈ plus, isNl c = false)
    (hqual : ∀ c ∈ qual, isNl c = false)
    (i0 : Nat) (p0 : Option Char)
    (hroom : i0 + stl.length + plus.length + qual.length + 4 ≤ headroom) :
    ∃ stF : FqScan,
      fqLoop headroom ⟨i0, p0, true, 1⟩
          ((s0 :: stl) ++ '\n' :: (('+' :: plus) ++ '\n' :: (qual ++ '\n' :: rest))) =
        ((s0 :: stl) ++ '\n' :: (('+' :: plus) ++ '\n' :: qual), stF, '\n' :: rest) ∧
      stF.i = i0 + stl.length + plus.length + qual.length + 4 := by
  have hseq' : ∀ c ∈ s0 :: stl, isNl c = false := by
    intro c hc
    rcases List.mem_cons.mp hc with rfl | h
    · exact hs0
    · exact hstl c h
  -- seq line chars
  have e1 := fqLoop_seg headroom (s0 :: stl) hseq' ⟨i0, p0, true, 1⟩
    ('\n' :: (('+' :: plus) ++ '\n' :: (qual ++ '\n' :: rest)))
    (by simp; omega) (Or.inr (Or.inr (by simp)))
  rw [show nlBump (s0 :: stl)
      ('\n' :: (('+' :: plus) ++ '\n' :: (qual ++ '\n' :: rest))) = 1 from rfl] at e1
  dsimp only [List.length_cons] at e1
  rw [show (1 : Nat) + 1 = 2 from rfl] at e1
  -- the seq-line newline
  have e2 := fqLoop_cons headroom ⟨i0 + (stl.length + 1), p0, true, 2⟩ '\n'
    (('+' :: plus) ++ '\n' :: (qual ++ '\n' :: rest))
    (by dsimp only; omega) (Or.inr (by dsimp only; omega))
  rw [show ((('+' :: plus) ++ '\n' :: (qual ++ '\n' :: rest)).head? = some '+') from rfl,
    fqStep_nl_nr _ _ (by rfl),
    show headNl (some '+') = 0 from rfl] at e2
  dsimp only at e2
  rw [Nat.add_zero] at e2
  rw [e2] at e1
  dsimp only at e1
  -- the '+' line chars
  have hplus' : ∀ c ∈ '+' :: plus, isNl c = false := by
    intro c hc
    rcases List.mem_cons.mp hc with rfl | h
    · rfl
    · exact hplus c h
  have e3 := fqLoop_seg headroom ('+' :: plus) hplus'
    ⟨i0 + (stl.length + 1) + 1, some '+', true, 2⟩
    ('\n' :: (qual ++ '\n' :: rest))
    (by dsimp only [List.length_cons]; omega) (Or.inr (Or.inr (by dsimp only; omega)))
  rw [show nlBump ('+' :: plus) ('\n' :: (qual ++ '\n' :: rest)) = 1 from rfl] at e3
  dsimp only [List.length_cons] at e3
  rw [show (2 : Nat) + 1 = 3 from rfl] at e3
  rw [e3] at e1
  dsimp only at e1
  -- the '+'-line newline
  have e4 := fqLoop_cons headroom
    ⟨i0 + (stl.length + 1) + 1 + (plus.length + 1), some '+', true, 3⟩ '\n'
    (qual ++ '\n' :: rest) (by dsimp only; omega) (Or.inr (by dsimp only; omega))
  rw [fqStep_nl_nr _ _ (by rfl)] at e4
  dsimp only at e4
  cases qual with
  | nil =>
    simp only [List.length_nil] at hroom
    rw [show (([] : List Char) ++ '\n' :: rest).head? = some '\n' from rfl,
      headNl_newline, show (3 : Nat) + 1 = 4 from rfl, List.nil_append] at e4
    have e5 := fqLoop_exit headroom
      ⟨i0 + (stl.length + 1) + 1 + (plus.length + 1) + 1, some '\n', true, 4⟩ '\n' rest
      (by
        intro hcon
        rcases hcon.2 with hh | hh
        · dsimp only at hh
          exact Bool.noConfusion hh
        · dsimp only at hh
          omega)
    rw [e5] at e4
    simp only [List.nil_append] at e1
    rw [e4] at e1
    dsimp only at e1
    refine ⟨_, e1, ?_⟩
    dsimp only [List.length_nil]
    omega
  | cons qh qt =>
    simp only [List.length_cons] at hroom
    rw [show ((qh :: qt) ++ '\n' :: rest).head? = some qh from rfl,
      headNl_nonl qh (hqual qh (by simp)), Nat.add_zero] at e4
    have e5 := fqLoop_seg headroom (qh :: qt) hqual
      ⟨i0 + (stl.length + 1) + 1 + (plus.length + 1) + 1, some qh, true, 3⟩
      ('\n' :: rest)
      (by dsimp only [List.length_cons]; omega)
      (Or.inr (Or.inr (by dsimp only; omega)))
    rw [show nlBump (qh :: qt) ('\n' :: rest) = 1 from rfl] at e5
    dsimp only [List.length_cons] at e5
    rw [show (3 : Nat) + 1 = 4 from rfl] at e5
    have e6 := fqLoop_exit headroom
      ⟨i0 + (stl.length + 1) + 1 + (plus.length + 1) + 1 + (qt.length + 1), some qh, true, 4⟩
      '\n' rest
      (by
        intro hcon
        rcases hcon.2 with hh | hh
        · dsimp only at hh
          exact Bool.noConfusion hh
        · dsimp only at hh
          omega)
    rw [e6] at e5
    rw [e5] at e4
    dsimp only at e4
    rw [List.append_nil] at e4
    rw [e4] at e1
    dsimp only at e1
    refine ⟨_, e1, ?_⟩
    dsimp only [List.length_cons]
    omega

theorem seqStartB_not_nl (d : Char) (h : seqStartB (some d) = true) :
    isNl d = false := by
  cases hd : isNl d
  · rfl
  · exfalso
    unfold isNl at hd
    rcases Bool.or_eq_true_iff.mp hd with h1 | h1
    · rw [eq_of_beq h1] at h
      exact Bool.noConfusion h
    · rw [eq_of_beq h1] at h
      exact Bool.noConfusion h

/-- C6: in the FASTQ light parse, when the raw scratch buffer was filled to
its target size ending in the middle of a record — here, `q` is the cut-off
tail of the previous record's quality line — `nextBatchFromFile` keeps
reading into the reserved head-room until a complete 4-line FASTQ record
boundary is found: the extension consumes exactly the remainder of the cut
record plus the entire next record (`@name` line, sequence line, `+` line,
quality line, final newline included) and stops right there, so the buffer
handed to a worker ends exactly on a record boundary, never with a
truncated record.  `headroom` must accommodate the extension, which is what
the reserved `max_raw_buf_overrun_` is for; the next record is well-formed
(`name`, `seq`, `plus`, `qual` are its newline-free line bodies and `seq`
starts with a byte the heuristic of src/pat.cpp:1048 accepts). -/
theorem fastq_record_boundary
    (q name seq plus qual rest : List Char) (headroom : Nat)
    (hq : ∀ c ∈ q, isNl c = false)
    (hname : ∀ c ∈ name, isNl c = false)
    (hqual : ∀ c ∈ qual, isNl c = false)
    (hplus : ∀ c ∈ plus, isNl c = false)
    (hseq : ∀ c ∈ seq, isNl c = false)
    (hstart : seqStartB seq.head? = true)
    (hroom : q.length + name.length + seq.length + plus.length +
      qual.length + 7 ≤ headroom) :
    fqExtend headroom
        (q ++ '\n' :: '@' :: name ++ '\n' :: seq ++ '\n' :: '+' :: plus ++
          '\n' :: qual ++ '\n' :: rest) =
      (q ++ '\n' :: '@' :: name ++ '\n' :: seq ++ '\n' :: '+' :: plus ++
          '\n' :: qual ++ ['\n'], false, rest) := by
  obtain ⟨s0, stl, rfl⟩ : ∃ s0 stl, seq = s0 :: stl := by
    cases seq with
    | nil => exact absurd hstart (by simp [seqStartB])
    | cons a l => exact ⟨a, l, rfl⟩
  have hs0 : isNl s0 = false := seqStartB_not_nl s0 hstart
  have hstl : ∀ c ∈ stl, isNl c = false := fun c hc => hseq c (by simp [hc])
  simp only [List.length_cons] at hroom
  -- phase 1: the tail of the previous record's quality line
  have e1 := fqLoop_seg headroom q hq ⟨0, none, false, 0⟩
    ('\n' :: (('@' :: name) ++ '\n' :: ((s0 :: stl) ++ '\n' ::
      (('+' :: plus) ++ '\n' :: (qual ++ '\n' :: rest)))))
    (by dsimp only; omega) (Or.inr (Or.inl rfl))
  dsimp only at e1
  rw [Nat.zero_add] at e1
  -- the quality-line newline: prev_line_start_c becomes '@'
  have e2 := fqLoop_cons headroom
    ⟨q.length, none, false, 0 + nlBump q ('\n' :: (('@' :: name) ++ '\n' ::
      ((s0 :: stl) ++ '\n' :: (('+' :: plus) ++ '\n' :: (qual ++ '\n' :: rest)))))⟩
    '\n'
    (('@' :: name) ++ '\n' :: ((s0 :: stl) ++ '\n' ::
      (('+' :: plus) ++ '\n' :: (qual ++ '\n' :: rest))))
    (by dsimp only; omega) (Or.inl rfl)
  rw [show ((('@' :: name) ++ '\n' :: ((s0 :: stl) ++ '\n' ::
      (('+' :: plus) ++ '\n' :: (qual ++ '\n' :: rest)))).head? = some '@') from rfl,
    fqStep_nl_nopls _ _ (by rfl) (by rfl),
    show headNl (some '@') = 0 from rfl, Nat.add_zero] at e2
  dsimp only at e2
  rw [e2] at e1
  dsimp only at e1
  generalize hn1 : 0 + nlBump q ('\n' :: (('@' :: name) ++ '\n' :: ((s0 :: stl) ++ '\n' ::
      (('+' :: plus) ++ '\n' :: (qual ++ '\n' :: rest))))) + 0 = n1 at e1
  -- the header line
  have e3 := fqLoop_seg headroom ('@' :: name)
    (by
      intro c hc
      rcases List.mem_cons.mp hc with rfl | h
      · rfl
      · exact hname c h)
    ⟨q.length + 1, some '@', false, n1⟩
    ('\n' :: ((s0 :: stl) ++ '\n' :: (('+' :: plus) ++ '\n' :: (qual ++ '\n' :: rest))))
    (by dsimp only [List.length_cons]; omega) (Or.inr (Or.inl rfl))
  rw [show nlBump ('@' :: name) ('\n' :: ((s0 :: stl) ++ '\n' ::
      (('+' :: plus) ++ '\n' :: (qual ++ '\n' :: rest)))) = 1 from rfl] at e3
  dsimp only [List.length_cons] at e3
  rw [e3] at e1
  dsimp only at e1
  -- the header newline: the new-record heuristic fires
  have e4 := fqLoop_cons headroom
    ⟨q.length + 1 + (name.length + 1), some '@', false, n1 + 1⟩ '\n'
    ((s0 :: stl) ++ '\n' :: (('+' :: plus) ++ '\n' :: (qual ++ '\n' :: rest)))
    (by dsimp only; omega) (Or.inl rfl)
  rw [show (((s0 :: stl) ++ '\n' :: (('+' :: plus) ++ '\n' ::
        (qual ++ '\n' :: rest))).head? = some s0) from rfl,
    fqStep_detect _ _ (by rfl) (by rfl) (show seqStartB (some s0) = true from hstart),
    headNl_nonl s0 hs0, Nat.add_zero] at e4
  dsimp only at e4
  -- phase 2: the whole new record
  obtain ⟨stF, heq, hiF⟩ := fqPhase2 headroom s0 stl plus qual rest hs0 hstl hplus hqual
    (q.length + 1 + (name.length + 1) + 1) (some s0) (by omega)
  rw [heq] at e4
  dsimp only at e4
  rw [e4] at e1
  dsimp only at e1
  -- assemble
  have hassoc : (q ++ '\n' :: '@' :: name ++ '\n' :: s0 :: stl ++ '\n' ::
      '+' :: plus ++ '\n' :: qual ++ '\n' :: rest : List Char) =
      q ++ '\n' :: (('@' :: name) ++ '\n' :: ((s0 :: stl) ++ '\n' ::
        (('+' :: plus) ++ '\n' :: (qual ++ '\n' :: rest)))) := by
    simp
  rw [hassoc]
  unfold fqExtend
  rw [e1]
  dsimp only
  rw [if_pos (by omega : stF.i < headroom)]
  simp

/-- Witness for C6: a buffer cut mid-quality-line (`II` left over), followed
by the record `@r2 / ACGT / + / IIII`; the extension appends exactly through
that record's final newline and leaves the following `@x` unread. -/
theorem fastq_record_boundary_witness :
    (∀ c ∈ ['I', 'I'], isNl c = false) ∧
      seqStartB (['A', 'C', 'G', 'T'] : List Char).head? = true ∧
      fqExtend 30
          (['I', 'I'] ++ '\n' :: '@' :: ['r', '2'] ++ '\n' :: ['A', 'C', 'G', 'T'] ++
            '\n' :: '+' :: ([] : List Char) ++ '\n' :: ['I', 'I', 'I', 'I'] ++
            '\n' :: ['@', 'x']) =
        (['I', 'I'] ++ '\n' :: '@' :: ['r', '2'] ++ '\n' :: ['A', 'C', 'G', 'T'] ++
            '\n' :: '+' :: ([] : List Char) ++ '\n' :: ['I', 'I', 'I', 'I'] ++ ['\n'],
          false, ['@', 'x']) :=
  ⟨by decide, by decide,
    fastq_record_boundary ['I', 'I'] ['r', '2'] ['A', 'C', 'G', 'T'] []
      ['I', 'I', 'I', 'I'] ['@', 'x'] 30 (by decide) (by decide) (by decide)
      (by decide) (by decide) (by decide) (by decide)⟩
